import Mathlib

/-
Verification of gitlab-art (src/art/command_line.py): a shallow embedding of the
install-rule compiler, the archive installer and the member-extraction routine,
together with a spec-level model of the local artifact cache.

Python strings are embedded as Lean `String` (a wrapper around `List Char`);
the Python string operations used by the source (`startswith`, `endswith`,
slicing, `in`, `len`) are embedded as list operations on `String.data`.
Filesystem effects of the installer are embedded as an explicit list of
`FsOp` operations, emitted in program order.
-/

/-- Embedding of Python `f.startswith(p)`. -/
def strStartsWith (s p : String) : Bool := p.data.isPrefixOf s.data

/-- Embedding of Python `f.endswith(p)`. -/
def strEndsWith (s p : String) : Bool := p.data.isSuffixOf s.data

/-- Embedding of Python `f[n:]` (drop the first `n` characters). -/
def strDrop (s : String) (n : Nat) : String := ⟨s.data.drop n⟩

/-- Embedding of Python `len(s)` (number of characters). -/
def strLen (s : String) : Nat := s.data.length

/-- Embedding of Python `c in s` for a single character `c` (`os.sep in target`). -/
def strContains (s : String) (c : Char) : Bool := s.data.contains c

/-- Embedding of Python `os.path.join(a, b)` (posixpath.join, `os.sep` is the slash):
if `b` is absolute it replaces the path, if `a` is empty or ends with the
separator they are concatenated, otherwise the separator is inserted. -/
def osPathJoin (a b : String) : String :=
  if strStartsWith b "/" then b
  else if a = "" || strEndsWith a "/" then a ++ b
  else a ++ "/" ++ b

/-- Helper for `dirname`: Python `head.rstrip(sep)` (drop trailing slashes). -/
def rstripSlash (l : List Char) : List Char :=
  (l.reverse.dropWhile (fun c => c == '/')).reverse

/-- Embedding of Python `os.path.dirname(p)` (posixpath.dirname): everything up to
and including the last slash, with trailing slashes stripped unless the head is
empty or entirely slashes. -/
def dirname (p : String) : String :=
  let i := p.data.length - (p.data.reverse.takeWhile (fun c => c != '/')).length
  let head := p.data.take i
  if head.all (fun c => c == '/') then ⟨head⟩ else ⟨rstripSlash head⟩

/-- Embedding of the zipfile `ZipInfo` fields read by the source: `filename`,
`create_system` and `external_attr`. -/
structure ZipInfo where
  filename : String
  create_system : Nat
  external_attr : Nat
deriving DecidableEq

/-- Filesystem effects performed by the installer, in program order:
`mkdirs` (recursive directory creation), `write` (stream-copy of a member
payload, recorded by member filename, to a target path), `chmod`. -/
inductive FsOp where
  | mkdirs (path : String)
  | write (path : String) (memberName : String)
  | chmod (path : String) (mode : Nat)
deriving DecidableEq

/-- Source constant `S_IRWXUGO = 0o0777`. -/
def S_IRWXUGO : Nat := 0o777

/-- Embedding of `install_member(archive, member, target)`: if the member records
the Unix creation system (3), the file mode is the upper 16 bits of
`external_attr` and the access mask keeps only the `S_IRWXUGO` bits; if the
target contains a separator the parent directories are created; the payload is
stream-copied to the target; finally, if an access mask was resolved, the
target is chmod-ed to it. The echo call has no filesystem effect and is not
modelled. -/
def install_member (member : ZipInfo) (target : String) : List FsOp :=
  let access : Option Nat :=
    if member.create_system = 3 then some ((member.external_attr >>> 16) &&& S_IRWXUGO)
    else none
  (if strContains target '/' then [FsOp.mkdirs (dirname target)] else [])
    ++ [FsOp.write target member.filename]
    ++ (match access with
        | some a => [FsOp.chmod target a]
        | none => [])

/-- Embedding of the rule-compilation branch of `install()`: one
`(match, translate)` pair per `(source, destination)` item. The literal `"."`
compiles to the copy-all filter, a pattern ending in a slash to the 1:1
directory filter, anything else to the 1:1 file filter. -/
def compileRule (source destination : String) : (String → Bool) × (String → String) :=
  if source = "." then
    (fun _ => true, fun f => osPathJoin destination f)
  else if strEndsWith source "/" then
    (fun f => strStartsWith f source, fun f => osPathJoin destination (strDrop f (strLen source)))
  else
    (fun f => f = source, fun _ => destination)

/-- Embedding of the loop building `installs` from the ordered `install` mapping. -/
def compileInstalls (install : List (String × String)) : List ((String → Bool) × (String → String)) :=
  install.map (fun sd => compileRule sd.1 sd.2)

/-- Embedding of the per-member body of the archive loop in `install()`:
directory entries (filename ending in a slash) are skipped; otherwise every
rule is tested in order and each matching rule triggers an extraction to that
rule's translated target. -/
def installForMember (installs : List ((String → Bool) × (String → String)))
    (member : ZipInfo) : List FsOp :=
  if strEndsWith member.filename "/" then []
  else
    (installs.map (fun mt =>
      if mt.1 member.filename then install_member member (mt.2 member.filename) else [])).flatten

/-- Embedding of the full archive loop of `install()` over the member list. -/
def installArchive (installs : List ((String → Bool) × (String → String)))
    (members : List ZipInfo) : List FsOp :=
  (members.map (installForMember installs)).flatten

/-- Projection of the write effects of an operation list, in order, as
(target path, member filename) pairs. -/
def writesOf (ops : List FsOp) : List (String × String) :=
  ops.filterMap (fun op =>
    match op with
    | FsOp.write p d => some (p, d)
    | _ => none)

/-- Projection of the chmod effects of an operation list, in order, as
(target path, mode) pairs. -/
def chmodsOf (ops : List FsOp) : List (String × Nat) :=
  ops.filterMap (fun op =>
    match op with
    | FsOp.chmod p m => some (p, m)
    | _ => none)

/-- Modelled from the spec: the local cache module (`_cache`, used by `download`
and `install` but not present in the sources). State is the set of committed
entries (key to content) plus at most one in-flight save (the temporary
location of `save_file`). -/
structure CacheState where
  committed : List (String × List Nat)
  pending : Option (String × List Nat)
deriving DecidableEq

/-- Modelled from the spec: cache `get(key)` is a pure existence check against
the committed backing files; a miss is the NotFound failure (here `none`). -/
def cacheGet (c : CacheState) (k : String) : Option (List Nat) :=
  (c.committed.find? (fun e => e.1 == k)).map (fun e => e.2)

/-- Modelled from the spec: entering the `save_file(key)` scope opens a sink at
a temporary location; nothing is visible under the real key yet. -/
def saveBegin (c : CacheState) (k : String) : CacheState :=
  { c with pending := some (k, []) }

/-- Modelled from the spec: a write through the scoped sink appends to the
temporary file only. -/
def saveWrite (c : CacheState) (data : List Nat) : CacheState :=
  match c.pending with
  | some kd => { c with pending := some (kd.1, kd.2 ++ data) }
  | none => c

/-- Modelled from the spec: abnormal termination of the writer discards the
temporary file; it is never promoted to the real key. -/
def saveAbort (c : CacheState) : CacheState :=
  { c with pending := none }

/-- Modelled from the spec: clean completion of the `save_file` scope atomically
promotes the temporary file to the final backing path for its key. -/
def saveCommit (c : CacheState) : CacheState :=
  match c.pending with
  | some kd =>
    { committed := (kd.1, kd.2) :: c.committed.filter (fun e => e.1 != kd.1),
      pending := none }
  | none => c

/-- Split a path into slash-separated components (spec-level notion used to
state that a translated destination lies outside the destination root). -/
def splitSlashAux : List Char → List Char → List String
  | [], acc => [⟨acc.reverse⟩]
  | c :: rest, acc =>
    if c = '/' then ⟨acc.reverse⟩ :: splitSlashAux rest [] else splitSlashAux rest (c :: acc)

/-- Split a path string on the separator. -/
def splitSlash (s : String) : List String := splitSlashAux s.data []

/-- Resolve `.`, `..` and empty components against a component stack
(spec-level path normalization for relative paths). -/
def resolveDots : List String → List String → List String
  | stack, [] => stack.reverse
  | stack, comp :: rest =>
    if comp = "." || comp = "" then resolveDots stack rest
    else if comp = ".." then resolveDots stack.tail rest
    else resolveDots (comp :: stack) rest

/-- Normalize a relative path by resolving dot components (spec-level notion). -/
def normalizePath (s : String) : String :=
  String.intercalate "/" (resolveDots [] (splitSlash s))

theorem writesOf_append (a b : List FsOp) : writesOf (a ++ b) = writesOf a ++ writesOf b :=
  List.filterMap_append ..

theorem chmodsOf_append (a b : List FsOp) : chmodsOf (a ++ b) = chmodsOf a ++ chmodsOf b :=
  List.filterMap_append ..

theorem writesOf_install_member (m : ZipInfo) (t : String) :
    writesOf (install_member m t) = [(t, m.filename)] := by
  unfold install_member
  split <;> split <;> simp [writesOf]

theorem chmodsOf_install_member (m : ZipInfo) (t : String) :
    chmodsOf (install_member m t) =
      if m.create_system = 3 then [(t, (m.external_attr >>> 16) &&& S_IRWXUGO)] else [] := by
  unfold install_member
  split <;> split <;> simp_all [chmodsOf]

/-- C2: for a member recording the Unix creation system (3), the chmod step
applies exactly the upper 16 bits of the external attributes masked to the
0o777 owner/group/other permission bits, discarding setuid/setgid/sticky and
file-type bits; for a member without the Unix creation system no chmod step is
performed. -/
theorem install_member_permission_bits (m : ZipInfo) (t : String) :
    (m.create_system = 3 →
      chmodsOf (install_member m t) = [(t, (m.external_attr >>> 16) &&& 0o777)]) ∧
    (m.create_system ≠ 3 → chmodsOf (install_member m t) = []) := by
  have base := chmodsOf_install_member m t
  constructor
  · intro h
    rw [base, if_pos h]
    rfl
  · intro h
    rw [base, if_neg h]

/-- Witness for C2: a member with Unix mode `0o100755` in the upper external
attribute bits is chmod-ed to exactly `0o755`, and a member with creation
system 0 (non-Unix) gets no chmod step. -/
theorem install_member_permission_bits_witness :
    chmodsOf (install_member ⟨"f", 3, 0o100755 <<< 16⟩ "out/f") = [("out/f", 0o755)] ∧
    chmodsOf (install_member ⟨"f", 0, 0o100755 <<< 16⟩ "f") = [] := by
  refine ⟨((install_member_permission_bits ⟨"f", 3, 0o100755 <<< 16⟩ "out/f").1 rfl).trans
      (by decide), ?_⟩
  exact (install_member_permission_bits ⟨"f", 0, 0o100755 <<< 16⟩ "f").2 (by decide)

/-- C10: for a Unix-origin member whose masked permission bits are all zero,
the chmod step still runs and sets mode 0; the chmod step is only skipped for
members without Unix origin, not for a zero mask. -/
theorem zero_mask_still_chmods (m : ZipInfo) (t : String) (h1 : m.create_system = 3)
    (h2 : (m.external_attr >>> 16) &&& 0o777 = 0) :
    chmodsOf (install_member m t) = [(t, 0)] := by
  rw [chmodsOf_install_member, if_pos h1]
  simp only [S_IRWXUGO]
  rw [h2]

/-- Witness for C10: a Unix-origin member whose mode is `0o100000` (regular
file, no permission bits) is chmod-ed to 0. -/
theorem zero_mask_still_chmods_witness :
    chmodsOf (install_member ⟨"f", 3, 0o100000 <<< 16⟩ "f") = [("f", 0)] :=
  zero_mask_still_chmods ⟨"f", 3, 0o100000 <<< 16⟩ "f" rfl (by decide)

/-- C5: the copy-all pattern, the literal `"."`, compiles to a matcher that is
true on every filename and a translator that path-joins the destination with
the unmodified filename. -/
theorem copy_all_rule_semantics (d f : String) :
    (compileRule "." d).1 f = true ∧ (compileRule "." d).2 f = osPathJoin d f := by
  unfold compileRule
  rw [if_pos rfl]
  exact ⟨rfl, rfl⟩

/-- C6: a pattern that is neither `"."` nor ends in the path separator compiles
to the exact-file rule: the matcher is true exactly on filenames equal to the
pattern and the translator always yields the destination unchanged. The empty
pattern is of this kind and matches only the empty filename. -/
theorem exact_file_rule_semantics (source dest f : String) (h1 : source ≠ ".")
    (h2 : strEndsWith source "/" = false) :
    ((compileRule source dest).1 f = true ↔ f = source) ∧
    (compileRule source dest).2 f = dest := by
  unfold compileRule
  rw [if_neg h1, if_neg (by simp [h2])]
  exact ⟨by simp, rfl⟩

/-- Witness for C6: the empty pattern compiles as the exact-file kind, matching
the empty archive filename and rejecting a nonempty one. -/
theorem exact_file_rule_semantics_witness :
    (compileRule "" "out").1 "" = true ∧ (compileRule "" "out").1 "x" = false := by
  have hx := exact_file_rule_semantics "" "out" "x" (by decide) (by decide)
  refine ⟨(exact_file_rule_semantics "" "out" "" (by decide) (by decide)).1.mpr rfl, ?_⟩
  cases hb : (compileRule "" "out").1 "x" with
  | false => rfl
  | true => exact absurd (hx.1.mp hb) (by decide)

/-- C7: a directory entry (filename ending in the path separator) produces no
filesystem operation at all, whatever the rule list is. -/
theorem directory_member_skipped (installs : List ((String → Bool) × (String → String)))
    (m : ZipInfo) (h : strEndsWith m.filename "/" = true) :
    installForMember installs m = [] := by
  unfold installForMember
  rw [if_pos h]

/-- Witness for C7: a directory entry is skipped even under the copy-all rule,
which matches every filename. -/
theorem directory_member_skipped_witness :
    installForMember (compileInstalls [(".", "out")]) ⟨"dir/", 3, 0⟩ = [] :=
  directory_member_skipped (compileInstalls [(".", "out")]) ⟨"dir/", 3, 0⟩ (by decide)

/-- C1: for a non-directory member, the installer tests every compiled rule in
declared order and extracts once per matching rule, with the target computed by
that rule's translator: the write effects are exactly one write per matching
rule, in rule order, with no early exit after the first match. -/
theorem installer_no_early_exit (installs : List ((String → Bool) × (String → String)))
    (m : ZipInfo) (h : strEndsWith m.filename "/" = false) :
    writesOf (installForMember installs m) =
      (installs.filter (fun mt => mt.1 m.filename)).map
        (fun mt => (mt.2 m.filename, m.filename)) := by
  unfold installForMember
  rw [if_neg (by simp [h])]
  induction installs with
  | nil => rfl
  | cons mt rest ih =>
    rw [List.map_cons, List.flatten_cons, writesOf_append, ih, List.filter_cons]
    cases hm : mt.1 m.filename with
    | false => simp [hm, writesOf]
    | true => simp [hm, writesOf_install_member]

/-- Witness for C1: a member matched by both the copy-all rule and a directory
rule is written twice, once per rule, in declared rule order. -/
theorem installer_no_early_exit_witness :
    writesOf (installForMember (compileInstalls [(".", "all"), ("bin/", "out")])
        ⟨"bin/tool", 0, 0⟩) =
      [("all/bin/tool", "bin/tool"), ("out/tool", "bin/tool")] :=
  (installer_no_early_exit (compileInstalls [(".", "all"), ("bin/", "out")])
    ⟨"bin/tool", 0, 0⟩ (by decide)).trans (by decide)

/-- C8: a non-directory member matched by no rule produces no filesystem
operation and no error: it is silently skipped. -/
theorem unmatched_member_skipped (installs : List ((String → Bool) × (String → String)))
    (m : ZipInfo) (h1 : strEndsWith m.filename "/" = false)
    (h2 : installs.all (fun mt => mt.1 m.filename == false) = true) :
    installForMember installs m = [] := by
  unfold installForMember
  rw [if_neg (by simp [h1])]
  induction installs with
  | nil => rfl
  | cons mt rest ih =>
    simp only [List.all_cons, Bool.and_eq_true, beq_iff_eq] at h2
    rw [List.map_cons, List.flatten_cons, if_neg (by simp [h2.1]), List.nil_append]
    exact ih h2.2

/-- Witness for C8: a member whose filename matches neither a directory rule
nor an exact-file rule yields the empty operation list. -/
theorem unmatched_member_skipped_witness :
    installForMember (compileInstalls [("bin/", "out"), ("x", "d")]) ⟨"lib/a", 0, 0⟩ = [] :=
  unmatched_member_skipped (compileInstalls [("bin/", "out"), ("x", "d")]) ⟨"lib/a", 0, 0⟩
    (by decide) (by decide)

/-- C4: a pattern ending in the path separator (and distinct from `"."`)
compiles to the directory rule: the matcher is true exactly when the pattern is
a character-prefix of the filename, and the translator path-joins the
destination with the filename minus the pattern prefix. -/
theorem directory_rule_semantics (source dest f : String)
    (h2 : strEndsWith source "/" = true) :
    ((compileRule source dest).1 f = true ↔ source.data <+: f.data) ∧
    (∀ rest : List Char, f.data = source.data ++ rest →
      (compileRule source dest).2 f = osPathJoin dest ⟨rest⟩) := by
  have h1 : source ≠ "." := by
    intro e
    rw [e] at h2
    exact absurd h2 (by decide)
  unfold compileRule
  rw [if_neg h1, if_pos h2]
  constructor
  · simp [strStartsWith]
  · intro rest hr
    simp [strDrop, strLen, hr, List.drop_left]

/-- Witness for C4: pattern `"bin/"` with destination `"out"` matches
`"bin/tool"` and translates it to `"out/tool"`. -/
theorem directory_rule_semantics_witness :
    (compileRule "bin/" "out").1 "bin/tool" = true ∧
    (compileRule "bin/" "out").2 "bin/tool" = "out/tool" := by
  have h := directory_rule_semantics "bin/" "out" "bin/tool" (by decide)
  exact ⟨h.1.mpr ⟨"tool".data, by decide⟩, (h.2 "tool".data (by decide)).trans (by decide)⟩

/-- C3: a cache save interrupted before clean completion leaves nothing
retrievable under its key (the temporary file is discarded, never promoted),
and a subsequent successful save of the same key makes `get` return exactly the
newly saved content. -/
theorem cache_save_atomic (c : CacheState) (k : String) (w content : List Nat)
    (h : cacheGet c k = none) :
    cacheGet (saveAbort (saveWrite (saveBegin c k) w)) k = none ∧
    (∀ c2 : CacheState, cacheGet (saveCommit (saveWrite (saveBegin c2 k) content)) k
      = some content) := by
  constructor
  · simpa [cacheGet, saveAbort, saveWrite, saveBegin] using h
  · intro c2
    simp [cacheGet, saveCommit, saveWrite, saveBegin, List.find?]

/-- Witness for C3: starting from an empty cache, an aborted save of key `"k"`
leaves `get` failing, and a committed save makes `get` return the saved bytes. -/
theorem cache_save_atomic_witness :
    cacheGet (saveAbort (saveWrite (saveBegin ⟨[], none⟩ "k") [1])) "k" = none ∧
    cacheGet (saveCommit (saveWrite (saveBegin ⟨[], none⟩ "k") [2, 3])) "k" = some [2, 3] := by
  have h := cache_save_atomic ⟨[], none⟩ "k" [1] [2, 3] (by decide)
  exact ⟨h.1, h.2 ⟨[], none⟩⟩

/-- C9: the translators perform no sanitization: a filename with a `..`
component escapes the destination root (the normalized destination is not under
the root), and for absolute member filenames the copy-all translator and the
directory translator discard the destination root entirely via the path join. -/
theorem translators_no_sanitization :
    ((compileRule "." "out").2 "../evil" = "out/../evil"
      ∧ strStartsWith (normalizePath ((compileRule "." "out").2 "../evil")) "out/" = false
      ∧ normalizePath ((compileRule "." "out").2 "../evil") ≠ "out")
    ∧ (compileRule "." "out").2 "/etc/passwd" = "/etc/passwd"
    ∧ ((compileRule "/" "out").1 "//etc/passwd" = true
      ∧ (compileRule "/" "out").2 "//etc/passwd" = "/etc/passwd") := by
  exact ⟨⟨by decide, by decide, by decide⟩, by decide, by decide, by decide⟩
